import Mathlib

/-!
Verification development for the portfolio weight calculator
(`weight_calculator.py`): a shallow embedding of the graph builder
(`read_data_from_list`) and the recursive weight calculator
(`calculate_weights`), together with proofs about their behaviour.

Numeric model: Python's `Decimal` arithmetic runs in the default context
(28 significant digits, ROUND_HALF_EVEN), and the builder converts the
value text with `Decimal(float(text))`, i.e. through an IEEE-754 binary64
rounding step.  Both are modelled exactly over the rationals.  Rationals
are represented by a dedicated pair type `Q` whose operations are all
structurally recursive (fuel-bounded Euclid for normalisation), so that
every concrete run of the embedded program can be evaluated by `decide`.
-/

set_option maxRecDepth 8000

set_option synthInstance.maxSize 20000

/-- Integer power with a natural exponent, by structural recursion. -/
def ipow (b : Int) : Nat → Int
  | 0 => 1
  | k + 1 => ipow b k * b

/-- Fuel-bounded Euclid: `gcdGo fuel m n` computes `Nat.gcd m n` whenever
`fuel > m` (the first argument strictly decreases at every step). -/
def gcdGo : Nat → Nat → Nat → Nat
  | 0, _, n => n
  | fuel + 1, m, n =>
    match m with
    | 0 => n
    | mm + 1 => gcdGo fuel (n % (mm + 1)) (mm + 1)

/-- Greatest common divisor with always-sufficient fuel. -/
def gcdF (m n : Nat) : Nat := gcdGo (m + 1) m n

/-- Rational numbers as (numerator, denominator) pairs.  Every value built
by the operations below has a positive denominator and is in lowest terms,
so structural equality coincides with value equality on computed results. -/
structure Q where
  num : Int
  den : Int
deriving DecidableEq, Repr

instance : OfNat Q n := ⟨⟨(n : Int), 1⟩⟩

instance : Inhabited Q := ⟨0⟩

/-- Build the canonical representation of `n / d` (sign on the numerator,
denominator positive, fraction reduced). -/
def normQ (n d : Int) : Q :=
  if d = 0 then ⟨0, 1⟩
  else
    let s : Int := if d < 0 then -1 else 1
    let n' := s * n
    let d' := s * d
    let g : Int := (gcdF n'.natAbs d'.natAbs : Nat)
    if g = 0 then ⟨0, 1⟩ else ⟨n' / g, d' / g⟩

def qAdd (a b : Q) : Q := normQ (a.num * b.den + b.num * a.den) (a.den * b.den)

def qNeg (a : Q) : Q := ⟨-a.num, a.den⟩

def qSub (a b : Q) : Q := qAdd a (qNeg b)

def qMul (a b : Q) : Q := normQ (a.num * b.num) (a.den * b.den)

def qDiv (a b : Q) : Q := normQ (a.num * b.den) (a.den * b.num)

def qAbs (a : Q) : Q := ⟨(a.num.natAbs : Nat), a.den⟩

/-- Value-level order on `Q` (denominators of computed values are positive). -/
def qLt (a b : Q) : Prop := a.num * b.den < b.num * a.den

def qLe (a b : Q) : Prop := a.num * b.den ≤ b.num * a.den

instance (a b : Q) : Decidable (qLt a b) := by unfold qLt; infer_instance

instance (a b : Q) : Decidable (qLe a b) := by unfold qLe; infer_instance

/-- Fuel-bounded base-`b` logarithm on naturals: the number of times `n`
can be divided by `b` before falling below `b`. -/
def natLogGo (b : Nat) : Nat → Nat → Nat
  | 0, _ => 0
  | fuel + 1, n => if n < b then 0 else natLogGo b fuel (n / b) + 1

/-- Floor logarithm `⌊log_b n⌋` for `1 ≤ n` (fuel `n + 1` always suffices). -/
def natLogF (b n : Nat) : Nat := natLogGo b (n + 1) n

/-- Ceiling logarithm: least `e` with `n ≤ b ^ e`, for `n ≥ 1`. -/
def natClogF (b n : Nat) : Nat := if n ≤ 1 then 0 else natLogF b (n - 1) + 1

/-- Floor logarithm `⌊log_b q⌋` of a positive rational. -/
def qFloorLog (b : Nat) (q : Q) : Int :=
  if q.den ≤ q.num then (natLogF b (q.num / q.den).toNat : Nat)
  else -((natClogF b ((q.den + q.num - 1) / q.num).toNat : Nat) : Int)

/-- Round a rational to the nearest integer, ties to even (the rounding
mode of both IEEE-754 binary64 and Python's default Decimal context). -/
def roundHE (q : Q) : Int :=
  let f := q.num.fdiv q.den
  let r2 := 2 * (q.num - f * q.den)
  if r2 < q.den then f
  else if q.den < r2 then f + 1
  else if f % 2 = 0 then f else f + 1

/-- Multiply `q` by `b ^ e` for an integer exponent `e`. -/
def qScalePow (q : Q) (b : Nat) (e : Int) : Q :=
  match e with
  | .ofNat k => normQ (q.num * ipow b k) q.den
  | .negSucc k => normQ q.num (q.den * ipow b (k + 1))

/-- Round to 28 significant decimal digits, half-even: the rounding applied
by every arithmetic operation of Python's default Decimal context. -/
def decRound (q : Q) : Q :=
  if q.num = 0 then ⟨0, 1⟩
  else
    let s : Int := if q.num < 0 then -1 else 1
    let a : Q := ⟨(q.num.natAbs : Nat), q.den⟩
    let sc : Int := 27 - qFloorLog 10 a
    let m := roundHE (qScalePow a 10 sc)
    qScalePow ⟨s * m, 1⟩ 10 (-sc)

/-- Round a rational to the nearest IEEE-754 binary64 value (53-bit
significand, round half to even; overflow and subnormals are not modelled,
which is faithful for all magnitudes arising here).  This is what Python's
`float(text)` produces from the exact decimal value of `text`. -/
def floatOfRat (q : Q) : Q :=
  if q.num = 0 then ⟨0, 1⟩
  else
    let s : Int := if q.num < 0 then -1 else 1
    let a : Q := ⟨(q.num.natAbs : Nat), q.den⟩
    let e : Int := qFloorLog 2 a - 52
    let m := roundHE (qScalePow a 2 (-e))
    qScalePow ⟨s * m, 1⟩ 2 e

/-- Decimal-context addition (`Decimal.__add__` under the default context). -/
def decAdd (a b : Q) : Q := decRound (qAdd a b)

/-- Decimal-context multiplication. -/
def decMul (a b : Q) : Q := decRound (qMul a b)

/-- Decimal-context division. -/
def decDiv (a b : Q) : Q := decRound (qDiv a b)

/-- Python's `sum` over Decimal values: a left fold of context additions
starting from 0. -/
def decSum (l : List Q) : Q := l.foldl decAdd 0

/-- Rounding a value to three decimal places half-even, as the `:.3F`
format specifier does for Decimal values. -/
def roundTo3 (q : Q) : Q := normQ (roundHE (qMul q 1000)) 1000

/-- Exact (claim-side) sum of the weight values of an inner mapping. -/
def qsum (l : List (String × Q)) : Q := l.foldl (fun a p => qAdd a p.2) 0

/-! ## Ordered dictionaries

Python 3.7+ dicts preserve insertion order: assigning an existing key keeps
its position, assigning a fresh key appends.  Both the fund graph and the
weights mapping are such dicts, modelled as association lists. -/

/-- Look up the value stored under `key` (first matching entry). -/
def lookupD {β : Type} : List (String × β) → String → Option β
  | [], _ => none
  | (k, v) :: rest, key => if k = key then some v else lookupD rest key

/-- Python dict assignment `d[key] = v`: replace in place if the key is
present, append otherwise. -/
def setD {β : Type} : List (String × β) → String → β → List (String × β)
  | [], key, v => [(key, v)]
  | (k, w) :: rest, key, v =>
    if k = key then (k, v) :: rest else (k, w) :: setD rest key v

/-- A `defaultdict` access that only reads: inserts `(key, d)` at the end
when the key is missing, otherwise leaves the dict unchanged. -/
def ensureD {β : Type} (l : List (String × β)) (key : String) (d : β) :
    List (String × β) :=
  match lookupD l key with
  | some _ => l
  | none => l ++ [(key, d)]

/-- Python `dict.update`: assign every entry of `upd` in order. -/
def updateD {β : Type} (l upd : List (String × β)) : List (String × β) :=
  upd.foldl (fun acc kv => setD acc kv.1 kv.2) l

/-! ## Data model of the program -/

/-- The `values` dict of one `Fund`: child name to held Decimal value. -/
abbrev Fund := List (String × Q)

/-- The `funds` defaultdict: fund name to its `Fund`. -/
abbrev Graph := List (String × Fund)

/-- The nested `weights` defaultdict(dict) built by `calculate_weights`. -/
abbrev Weights := List (String × List (String × Q))

/-- The holdings of `x`: its stored `Fund`, or `[]` when `x` is absent
(matching what a `defaultdict(Fund)` access would create). -/
def fundOf (g : Graph) (x : String) : Fund := (lookupD g x).getD []

/-- The set of names present as keys of the graph dict. -/
def keysFinset (g : Graph) : Finset String := (g.map Prod.fst).toFinset

/-! ## Value-text parsing

`read_data_from_list` evaluates `Decimal(float(row[2]))`.  `pyFloat`
models `float(text)` on finite decimal literals: optional sign, integer
and/or fractional digits, optional exponent — returning the exact decimal
value denoted (the binary64 rounding is applied separately with
`floatOfRat`).  Special spellings accepted by CPython but irrelevant here
(inf/nan, underscores, surrounding whitespace) are outside the model. -/

/-- Accumulate a digit string's value. -/
def natOfDigits (cs : List Char) : Nat :=
  cs.foldl (fun a c => a * 10 + (c.toNat - 48)) 0

/-- Split an optional leading sign, returning (sign, rest). -/
def splitSign : List Char → Int × List Char
  | '+' :: rest => (1, rest)
  | '-' :: rest => (-1, rest)
  | cs => (1, cs)

/-- Exact value of a decimal float literal, or `none` when `float(text)`
raises `ValueError`. -/
def pyFloat (text : String) : Option Q :=
  let (sgn, cs) := splitSign text.data
  let ipart := cs.takeWhile Char.isDigit
  let cs1 := cs.dropWhile Char.isDigit
  let (fpart, cs2) :=
    match cs1 with
    | '.' :: rest => (rest.takeWhile Char.isDigit, rest.dropWhile Char.isDigit)
    | _ => ([], cs1)
  if ipart.isEmpty ∧ fpart.isEmpty then none
  else
    let mantissa : Q :=
      normQ (sgn * ((natOfDigits ipart * 10 ^ fpart.length + natOfDigits fpart : Nat) : Int))
        (ipow 10 fpart.length)
    match cs2 with
    | [] => some mantissa
    | 'e' :: r => pyFloatExp mantissa r
    | 'E' :: r => pyFloatExp mantissa r
    | _ => none
where
  /-- Parse the exponent digits and apply them. -/
  pyFloatExp (mantissa : Q) (r : List Char) : Option Q :=
    let (esgn, r1) := splitSign r
    let eds := r1.takeWhile Char.isDigit
    let rem := r1.dropWhile Char.isDigit
    if eds.isEmpty ∨ ¬rem.isEmpty then none
    else some (qScalePow mantissa 10 (esgn * (natOfDigits eds : Nat)))

/-! ## Graph Builder (`read_data_from_list`) -/

/-- Error simulation: `DataError` with the two message shapes used by the
builder, plus Python's `ValueError` escaping from `float`. -/
inductive BuildErr where
  /-- Raised as `DataError(f"Incorrect data format at line {idx}")`. -/
  | format (line : Nat)
  /-- Raised as `DataError(f"Duplicate fund entry at line {idx}")`. -/
  | duplicate (line : Nat)
  /-- Python `ValueError` raised by `float(row[2])`. -/
  | valueError (line : Nat)
deriving DecidableEq, Repr

/-- Result of a fallible computation (an `Except` with derived equality). -/
inductive Res (ε α : Type) where
  | error : ε → Res ε α
  | ok : α → Res ε α
deriving DecidableEq, Repr

/-- The builder's loop state: the funds dict and the `has_parent` set. -/
structure BuildState where
  funds : Graph
  hasParent : Finset String
deriving DecidableEq

/-- One iteration of the builder's `for idx, row in enumerate(...)` body.
The order of checks follows the source: row shape, then `float` parse,
then empty names, then the duplicate-edge check. -/
def buildStep (idx : Nat) (st : BuildState) (row : List String) :
    Res BuildErr BuildState :=
  match row with
  | [parent, child, vtext] =>
    match pyFloat vtext with
    | none => .error (.valueError idx)
    | some qv =>
      let value := floatOfRat qv
      if parent = "" ∨ child = "" then .error (.format idx)
      else
        let funds₁ := ensureD st.funds parent []
        let pf := fundOf funds₁ parent
        match lookupD pf child with
        | none =>
          let funds₂ := setD funds₁ parent (pf ++ [(child, value)])
          let funds₃ := ensureD funds₂ child []
          .ok ⟨funds₃, insert child st.hasParent⟩
        | some _ => .error (.duplicate idx)
  | _ => .error (.format idx)

/-- The builder loop from line number `idx`. -/
def buildAux : Nat → List (List String) → BuildState → Res BuildErr BuildState
  | _, [], st => .ok st
  | idx, row :: rest, st =>
    match buildStep idx st row with
    | .error e => .error e
    | .ok st' => buildAux (idx + 1) rest st'

/-- The builder `read_data_from_list`: build the graph and the root set
(`funds.keys() - has_parent`) from the record rows, aborting on the first
defective row. -/
def read_data_from_list (rows : List (List String)) :
    Res BuildErr (Graph × Finset String) :=
  match buildAux 1 rows ⟨[], ∅⟩ with
  | .error e => .error e
  | .ok st => .ok (st.funds, keysFinset st.funds \ st.hasParent)

/-! ## Weight Calculator (`calculate_weights`)

The recursion is modelled with explicit fuel (structural, hence
kernel-computable); `calcFuel` below always suffices, which is proved in
`calcMainF_isSome`.  The mutable `visited` set and the `funds` defaultdict
(which gains an entry on lookup of an absent name) are threaded through
explicitly and returned alongside the result, also on the error path —
exactly the state a caller observes after a Python exception. -/

/-- The `DataError` raised on a looped graph, naming the offending fund. -/
inductive CalcErr where
  | looped (fund : String)
deriving DecidableEq, Repr

/-- Process the children of `fundName` in order (`for key, value in
fund.values.items()`), accumulating the weights dict.  `rec` is the
recursive call at the remaining fuel.  Faithfully reproduces the source:
a base child is written at `weights[fund_name][key]`; a non-base child's
inner weights are scaled and *assigned* (not summed) at
`weights[fund_name][k]`, then the child's whole nested dict is merged in
with `weights.update(sub_weights)` once per iteration of its outer loop. -/
def calcChildrenF
    (rec : Graph → String → Finset String →
      Option (Graph × Finset String × Res CalcErr (Q × Option Weights)))
    (fundName : String) (fundValue : Q) :
    Graph → List (String × Q) → Finset String → Weights →
    Option (Graph × Finset String × Res CalcErr Weights)
  | funds, [], visited, w => some (funds, visited, .ok w)
  | funds, (key, value) :: rest, visited, w =>
    match rec funds key visited with
    | none => none
    | some (funds', visited', .error e) => some (funds', visited', .error e)
    | some (funds', visited', .ok (_, subW)) =>
      let wsub := subW.getD []
      let w' :=
        if wsub.isEmpty then
          setD w fundName
            (setD ((lookupD w fundName).getD []) key (decDiv value fundValue))
        else
          wsub.foldl
            (fun acc p =>
              let acc₁ := p.2.foldl
                (fun a kv =>
                  setD a fundName
                    (setD ((lookupD a fundName).getD []) kv.1
                      (decMul kv.2 (decDiv value fundValue)))) acc
              updateD acc₁ wsub) w
      calcChildrenF rec fundName fundValue funds' rest visited' w'

/-- One fuelled unfolding of `calculate_weights`: check the visited set,
read (and possibly defaultdict-insert) the fund, and either return the
base-fund result `(Decimal(0), None)` or recurse over the children and
return `(fund_value, weights)`, removing the fund from `visited` only on
the successful path (a raised exception skips `visited.remove`). -/
def calcMainF : Nat → Graph → String → Finset String →
    Option (Graph × Finset String × Res CalcErr (Q × Option Weights))
  | 0, _, _, _ => none
  | fuel + 1, funds, fundName, visited =>
    if fundName ∈ visited then some (funds, visited, .error (.looped fundName))
    else
      let funds₁ := ensureD funds fundName []
      let fund := fundOf funds₁ fundName
      if fund.isEmpty then some (funds₁, visited, .ok (0, none))
      else
        let visited₁ := insert fundName visited
        let fundValue := decSum (fund.map Prod.snd)
        match calcChildrenF (calcMainF fuel) fundName fundValue funds₁ fund visited₁ [] with
        | none => none
        | some (funds₂, visited₂, .error e) => some (funds₂, visited₂, .error e)
        | some (funds₂, visited₂, .ok w) =>
          some (funds₂, visited₂.erase fundName, .ok (fundValue, some w))

/-- Fuel that always suffices for `calcMainF` (proved in `calcMainF_isSome`). -/
def calcFuel (g : Graph) : Nat := g.length + 1

/-- A top-level call `calculate_weights(funds, fund_name)` whose default
`visited` set is empty (the state of the default argument on the first
ever invocation). -/
def calculate_weights (g : Graph) (fundName : String) :
    Option (Graph × Finset String × Res CalcErr (Q × Option Weights)) :=
  calcMainF (calcFuel g) g fundName ∅

/-- A top-level call with the module-level default `visited` set currently
holding `s`: Python evaluates the default `set()` once, so the same object
is shared by every default-argument invocation. -/
def callDefault (s : Finset String) (g : Graph) (fundName : String) :
    Option (Graph × Finset String × Res CalcErr (Q × Option Weights)) :=
  calcMainF (calcFuel g) g fundName s

/-! ## Graph-theoretic predicates used by the claims -/

/-- The holding edge relation of a graph: `a` directly holds `b`. -/
def edgeR (g : Graph) (a b : String) : Prop := b ∈ (fundOf g a).map Prod.fst

instance (g : Graph) (a b : String) : Decidable (edgeR g a b) := by
  unfold edgeR; infer_instance

/-- Whether `b` is reachable from `a` along holding edges (zero or more steps). -/
def Reach (g : Graph) : String → String → Prop :=
  Relation.ReflTransGen (edgeR g)

/-- The non-base fund names of a graph: keys whose holdings are nonempty.
Only these are ever inserted into `visited`, which bounds the recursion. -/
def Kset (g : Graph) : Finset String :=
  (keysFinset g).filter (fun x => ¬(fundOf g x).isEmpty)

/-- Every child named by any fund is itself a key of the graph.  Graphs
produced by `read_data_from_list` have this shape (it stores `funds[child]`
for every accepted row). -/
def closedG (g : Graph) : Prop :=
  ∀ x ∈ keysFinset g, ∀ c ∈ (fundOf g x).map Prod.fst, c ∈ keysFinset g

instance (g : Graph) : Decidable (closedG g) := by
  unfold closedG; infer_instance

/-- Both graphs below agree with `base` on every stored fund (the
calculator only ever appends empty funds, so this is preserved). -/
def FPres (base g : Graph) : Prop := ∀ x, fundOf g x = fundOf base x

/-- Executable certificate of acyclicity: a rank function that strictly
drops along every edge. -/
def checkRank (g : Graph) (rank : String → Nat) : Bool :=
  g.all (fun p => ((fundOf g p.1).map Prod.fst).all (fun c => decide (rank c < rank p.1)))

/-! ## Concrete inputs from the specification's scenarios -/

/-- Scenario 1 of the spec (the original assignment data). -/
def scenario1Rows : List (List String) :=
  [["A", "B", "1000"], ["A", "C", "2000"], ["B", "D", "500"], ["B", "E", "250"],
   ["B", "F", "250"], ["C", "G", "1000"], ["C", "H", "1000"]]

/-- Scenario 2 of the spec: the diamond graph (B and D reachable along
several distinct paths). -/
def scenario2Rows : List (List String) :=
  [["A", "B", "500"], ["A", "C", "2100"], ["B", "D", "500"], ["B", "E", "250"],
   ["B", "F", "250"], ["C", "G", "500"], ["C", "H", "1000"], ["C", "B", "500"],
   ["C", "D", "100"]]

/-- The graph of a successful build (and `[]` on a build error). -/
def graphOf (rows : List (List String)) : Graph :=
  match read_data_from_list rows with
  | .ok (g, _) => g
  | .error _ => []

/-- Whether a build succeeds. -/
def buildOk (rows : List (List String)) : Bool :=
  match read_data_from_list rows with
  | .ok _ => true
  | .error _ => false

/-- Build from the rows, then run the weight calculator on `root`. -/
def runScenario (rows : List (List String)) (root : String) :
    Option (Graph × Finset String × Res CalcErr (Q × Option Weights)) :=
  calculate_weights (graphOf rows) root

/-- The absolute value component of a calculator result. -/
def resultValueOf
    (r : Option (Graph × Finset String × Res CalcErr (Q × Option Weights))) :
    Option Q :=
  match r with
  | some (_, _, .ok (v, _)) => some v
  | _ => none

/-- The outer keys of the returned weights dict (empty when the result is
an error, `None`, or fuel ran out). -/
def outerKeys
    (r : Option (Graph × Finset String × Res CalcErr (Q × Option Weights))) :
    List String :=
  match r with
  | some (_, _, .ok (_, some w)) => w.map Prod.fst
  | _ => []

/-- The inner weight mapping stored under `root` in the returned dict. -/
def rootInner
    (r : Option (Graph × Finset String × Res CalcErr (Q × Option Weights)))
    (root : String) : List (String × Q) :=
  match r with
  | some (_, _, .ok (_, some w)) => (lookupD w root).getD []
  | _ => []

/-- The returned-or-raised part of a call (what the caller observes). -/
def exceptPart
    (r : Option (Graph × Finset String × Res CalcErr (Q × Option Weights))) :
    Option (Res CalcErr (Q × Option Weights)) :=
  match r with
  | some (_, _, res) => some res
  | none => none

/-- The contents of the shared `visited` set after a call returns or
raises (the default-argument object retains exactly this). -/
def statePart
    (r : Option (Graph × Finset String × Res CalcErr (Q × Option Weights))) :
    Finset String :=
  match r with
  | some (_, vis, _) => vis
  | none => ∅

/-- A two-node looped graph, as built from rows `A,B,1` and `B,A,1`. -/
def gLoop : Graph := graphOf [["A", "B", "1"], ["B", "A", "1"]]

/-- A one-edge acyclic graph, as built from the single row `A,B,1`. -/
def gLine : Graph := graphOf [["A", "B", "1"]]

/-- A graph consisting of a single base fund. -/
def gBase : Graph := [("X", [])]

/-! ## Basic dictionary lemmas -/

theorem lookupD_append {β : Type} (l₁ l₂ : List (String × β)) (k : String) :
    lookupD (l₁ ++ l₂) k =
      match lookupD l₁ k with
      | some v => some v
      | none => lookupD l₂ k := by
  induction l₁ with
  | nil => simp [lookupD]
  | cons p rest ih =>
    obtain ⟨a, b⟩ := p
    by_cases h : a = k <;> simp [lookupD, h, ih]

theorem lookupD_setD_self {β : Type} (l : List (String × β)) (k : String) (v : β) :
    lookupD (setD l k v) k = some v := by
  induction l with
  | nil => simp [setD, lookupD]
  | cons p rest ih =>
    obtain ⟨a, b⟩ := p
    by_cases h : a = k <;> simp [setD, lookupD, h, ih]

theorem lookupD_setD_ne {β : Type} (l : List (String × β)) (k k' : String) (v : β)
    (h : k ≠ k') : lookupD (setD l k v) k' = lookupD l k' := by
  induction l with
  | nil => simp [setD, lookupD, h]
  | cons p rest ih =>
    obtain ⟨a, b⟩ := p
    by_cases ha : a = k
    · subst ha; simp [setD, lookupD, h, ih]
    · by_cases ha' : a = k' <;>
        simp [setD, lookupD, ha, ha', ih, Ne.symm h]

theorem mem_keysFinset_iff (g : Graph) (x : String) :
    x ∈ keysFinset g ↔ (lookupD g x).isSome := by
  induction g with
  | nil => simp [keysFinset, lookupD]
  | cons p rest ih =>
    obtain ⟨a, b⟩ := p
    by_cases h : a = x
    · subst h; simp [keysFinset, lookupD]
    · have hmem : x ∈ keysFinset ((a, b) :: rest) ↔ x ∈ keysFinset rest := by
        simp [keysFinset, Ne.symm h]
      rw [hmem, ih]
      simp [lookupD, h]

theorem fundOf_ne_mem_keys {g : Graph} {x : String} (h : ¬(fundOf g x).isEmpty) :
    x ∈ keysFinset g := by
  rw [mem_keysFinset_iff]
  unfold fundOf at h
  cases hl : lookupD g x with
  | none => rw [hl] at h; simp at h
  | some f => simp

theorem ensureD_eq_of_mem {g : Graph} {n : String} (h : (lookupD g n).isSome) :
    ensureD g n [] = g := by
  unfold ensureD
  cases hl : lookupD g n with
  | none => rw [hl] at h; simp at h
  | some f => simp

theorem ensureD_eq_append {g : Graph} {n : String} (h : lookupD g n = none) :
    ensureD g n [] = g ++ [(n, [])] := by
  unfold ensureD; rw [h]

theorem fundOf_ensure (g : Graph) (n x : String) :
    fundOf (ensureD g n []) x = fundOf g x := by
  unfold ensureD
  cases hl : lookupD g n with
  | some f => rfl
  | none =>
    unfold fundOf
    rw [lookupD_append]
    cases hx : lookupD g x with
    | some f => rfl
    | none =>
      by_cases h : n = x
      · subst h; simp [lookupD]
      · simp [lookupD, h]

theorem keys_subset_ensure (g : Graph) (n : String) :
    keysFinset g ⊆ keysFinset (ensureD g n []) := by
  intro x hx
  rw [mem_keysFinset_iff] at hx ⊢
  unfold ensureD
  cases hl : lookupD g n with
  | some f => exact hx
  | none =>
    rw [lookupD_append]
    cases hx' : lookupD g x with
    | none => rw [hx'] at hx; simp at hx
    | some f => simp

theorem fpres_refl (g : Graph) : FPres g g := fun _ => rfl

theorem fpres_trans {a b c : Graph} (h₁ : FPres a b) (h₂ : FPres b c) : FPres a c :=
  fun x => (h₂ x).trans (h₁ x)

theorem fpres_ensure (g : Graph) (n : String) : FPres g (ensureD g n []) :=
  fun x => fundOf_ensure g n x

theorem Kset_congr {g g' : Graph} (h : FPres g g') : Kset g' = Kset g := by
  ext x
  unfold Kset
  rw [Finset.mem_filter, Finset.mem_filter]
  constructor
  · rintro ⟨_, hne⟩
    rw [h x] at hne
    exact ⟨fundOf_ne_mem_keys hne, hne⟩
  · rintro ⟨_, hne⟩
    refine ⟨fundOf_ne_mem_keys ?_, ?_⟩ <;> rw [h x] <;> exact hne

theorem edge_congr {g g' : Graph} (h : FPres g g') (a b : String) :
    edgeR g' a b ↔ edgeR g a b := by
  unfold edgeR; rw [h a]

theorem transGen_congr {g g' : Graph} (h : FPres g g') {a b : String}
    (hr : Relation.TransGen (edgeR g') a b) : Relation.TransGen (edgeR g) a b :=
  Relation.TransGen.mono (fun x y hxy => (edge_congr h x y).mp hxy) hr

theorem reach_congr {g g' : Graph} (h : FPres g g') {a b : String}
    (hr : Reach g' a b) : Reach g a b :=
  Relation.ReflTransGen.mono (fun x y hxy => (edge_congr h x y).mp hxy) hr

/-! ## Case-analysis helpers for the fuelled recursion -/

theorem calcMainF_succ_cases {fuel : Nat} {g : Graph} {n : String}
    {vis : Finset String} {r : Graph × Finset String × Res CalcErr (Q × Option Weights)}
    (h : calcMainF (fuel + 1) g n vis = some r) :
    (n ∈ vis ∧ r = (g, vis, .error (.looped n))) ∨
    (n ∉ vis ∧ (fundOf g n).isEmpty ∧ r = (ensureD g n [], vis, .ok (0, none))) ∨
    (n ∉ vis ∧ ¬(fundOf g n).isEmpty ∧
      ∃ g₂ vis₂ res,
        calcChildrenF (calcMainF fuel) n (decSum ((fundOf g n).map Prod.snd))
          (ensureD g n []) (fundOf g n) (insert n vis) [] = some (g₂, vis₂, res) ∧
        ((∃ e, res = .error e ∧ r = (g₂, vis₂, .error e)) ∨
         (∃ w, res = .ok w ∧
           r = (g₂, vis₂.erase n,
                .ok (decSum ((fundOf g n).map Prod.snd), some w))))) := by
  rw [calcMainF] at h
  by_cases hv : n ∈ vis
  · rw [if_pos hv] at h
    left
    exact ⟨hv, (Option.some.inj h).symm⟩
  · rw [if_neg hv] at h
    simp only [fundOf_ensure] at h
    by_cases he : (fundOf g n).isEmpty
    · rw [if_pos he] at h
      right; left
      exact ⟨hv, he, (Option.some.inj h).symm⟩
    · rw [if_neg he] at h
      right; right
      refine ⟨hv, he, ?_⟩
      cases hc : calcChildrenF (calcMainF fuel) n (decSum ((fundOf g n).map Prod.snd))
          (ensureD g n []) (fundOf g n) (insert n vis) [] with
      | none => rw [hc] at h; simp at h
      | some t =>
        obtain ⟨g₂, vis₂, res⟩ := t
        rw [hc] at h
        refine ⟨g₂, vis₂, res, rfl, ?_⟩
        cases res with
        | error e =>
          left
          exact ⟨e, rfl, (Option.some.inj h).symm⟩
        | ok w =>
          right
          exact ⟨w, rfl, (Option.some.inj h).symm⟩

theorem calcChildrenF_cons_cases
    {rec : Graph → String → Finset String →
      Option (Graph × Finset String × Res CalcErr (Q × Option Weights))}
    {fundName : String} {fundValue : Q} {g : Graph} {key : String} {value : Q}
    {rest : List (String × Q)} {vis : Finset String} {w : Weights}
    {r : Graph × Finset String × Res CalcErr Weights}
    (h : calcChildrenF rec fundName fundValue g ((key, value) :: rest) vis w = some r) :
    ∃ g₁ vis₁ res₁, rec g key vis = some (g₁, vis₁, res₁) ∧
      ((∃ e, res₁ = .error e ∧ r = (g₁, vis₁, .error e)) ∨
       (∃ p w', res₁ = .ok p ∧
         calcChildrenF rec fundName fundValue g₁ rest vis₁ w' = some r)) := by
  rw [calcChildrenF] at h
  cases hr : rec g key vis with
  | none => rw [hr] at h; simp at h
  | some t =>
    obtain ⟨g₁, vis₁, res₁⟩ := t
    rw [hr] at h
    refine ⟨g₁, vis₁, res₁, rfl, ?_⟩
    cases res₁ with
    | error e =>
      left
      exact ⟨e, rfl, (Option.some.inj h).symm⟩
    | ok p =>
      right
      exact ⟨p, _, rfl, h⟩

/-! ## Fund preservation: the calculator never changes a stored fund -/

theorem calcChildrenF_fpres
    {rec : Graph → String → Finset String →
      Option (Graph × Finset String × Res CalcErr (Q × Option Weights))}
    (hrec : ∀ g n vis r, rec g n vis = some r → FPres g r.1)
    (fundName : String) (fundValue : Q) :
    ∀ (cs : List (String × Q)) (g : Graph) (vis : Finset String) (w : Weights)
      (r : Graph × Finset String × Res CalcErr Weights),
      calcChildrenF rec fundName fundValue g cs vis w = some r → FPres g r.1 := by
  intro cs
  induction cs with
  | nil =>
    intro g vis w r h
    rw [calcChildrenF] at h
    rw [← Option.some.inj h]
    exact fpres_refl g
  | cons p rest ih =>
    obtain ⟨key, value⟩ := p
    intro g vis w r h
    obtain ⟨g₁, vis₁, res₁, hr, hcase⟩ := calcChildrenF_cons_cases h
    have h₁ : FPres g g₁ := hrec g key vis _ hr
    rcases hcase with ⟨e, _, hre⟩ | ⟨q, w', _, hrest⟩
    · rw [hre]; exact h₁
    · exact fpres_trans h₁ (ih g₁ vis₁ w' r hrest)

theorem calcMainF_fpres : ∀ (fuel : Nat) (g : Graph) (n : String)
    (vis : Finset String) (r : Graph × Finset String × Res CalcErr (Q × Option Weights)),
    calcMainF fuel g n vis = some r → FPres g r.1 := by
  intro fuel
  induction fuel with
  | zero => intro g n vis r h; rw [calcMainF] at h; simp at h
  | succ fuel ih =>
    intro g n vis r h
    rcases calcMainF_succ_cases h with
      ⟨_, hr⟩ | ⟨_, _, hr⟩ | ⟨_, _, g₂, vis₂, res, hc, hcase⟩
    · rw [hr]; exact fpres_refl g
    · rw [hr]; exact fpres_ensure g n
    · have h₁ : FPres (ensureD g n []) g₂ :=
        calcChildrenF_fpres (fun g' n' vis' r' hr' => ih g' n' vis' r' hr') _ _
          (fundOf g n) (ensureD g n []) (insert n vis) [] (g₂, vis₂, res) hc
      have h₂ : FPres g g₂ := fpres_trans (fpres_ensure g n) h₁
      rcases hcase with ⟨e, _, hr⟩ | ⟨w, _, hr⟩ <;> rw [hr] <;> exact h₂

/-! ## On success the visited set is restored (add … remove pairing) -/

theorem calcChildrenF_ok_vis
    {rec : Graph → String → Finset String →
      Option (Graph × Finset String × Res CalcErr (Q × Option Weights))}
    (hrec : ∀ g n vis g' vis' res, rec g n vis = some (g', vis', .ok res) → vis' = vis)
    (fundName : String) (fundValue : Q) :
    ∀ (cs : List (String × Q)) (g : Graph) (vis : Finset String) (w : Weights)
      (g' : Graph) (vis' : Finset String) (w₂ : Weights),
      calcChildrenF rec fundName fundValue g cs vis w = some (g', vis', .ok w₂) →
      vis' = vis := by
  intro cs
  induction cs with
  | nil =>
    intro g vis w g' vis' w₂ h
    rw [calcChildrenF] at h
    have h' := Option.some.inj h
    simp only [Prod.mk.injEq] at h'
    exact h'.2.1.symm
  | cons p rest ih =>
    obtain ⟨key, value⟩ := p
    intro g vis w g' vis' w₂ h
    obtain ⟨g₁, vis₁, res₁, hr, hcase⟩ := calcChildrenF_cons_cases h
    rcases hcase with ⟨e, hres, hre⟩ | ⟨q, w', hres, hrest⟩
    · simp only [Prod.mk.injEq] at hre
      cases hre.2.2
    · subst hres
      have hv₁ : vis₁ = vis := hrec g key vis g₁ vis₁ q hr
      rw [← hv₁]
      exact ih g₁ vis₁ w' g' vis' w₂ hrest

theorem calcMainF_ok_vis : ∀ (fuel : Nat) (g : Graph) (n : String)
    (vis : Finset String) (g' : Graph) (vis' : Finset String)
    (res : Q × Option Weights),
    calcMainF fuel g n vis = some (g', vis', .ok res) → vis' = vis := by
  intro fuel
  induction fuel with
  | zero => intro g n vis g' vis' res h; rw [calcMainF] at h; simp at h
  | succ fuel ih =>
    intro g n vis g' vis' res h
    rcases calcMainF_succ_cases h with
      ⟨_, hr⟩ | ⟨_, _, hr⟩ | ⟨hv, _, g₂, vis₂, cres, hc, hcase⟩
    · simp only [Prod.mk.injEq] at hr
      cases hr.2.2
    · simp only [Prod.mk.injEq] at hr
      exact hr.2.1
    · rcases hcase with ⟨e, _, hr⟩ | ⟨w, hres, hr⟩
      · simp only [Prod.mk.injEq] at hr
        cases hr.2.2
      · simp only [Prod.mk.injEq] at hr
        rw [hres] at hc
        have hvis₂ : vis₂ = insert n vis :=
          calcChildrenF_ok_vis (fun a b c d e f hh => ih a b c d e f hh) _ _
            (fundOf g n) (ensureD g n []) (insert n vis) [] g₂ vis₂ w hc
        rw [hr.2.1, hvis₂, Finset.erase_insert hv]

/-! ## Adequacy: `calcFuel` is always enough fuel -/

theorem calcChildrenF_isSome
    {rec : Graph → String → Finset String →
      Option (Graph × Finset String × Res CalcErr (Q × Option Weights))}
    (B : Nat)
    (hsome : ∀ g n vis, (Kset g \ vis).card ≤ B → (rec g n vis).isSome)
    (hfp : ∀ g n vis r, rec g n vis = some r → FPres g r.1)
    (hvis : ∀ g n vis g' vis' res, rec g n vis = some (g', vis', .ok res) → vis' = vis)
    (fundName : String) (fundValue : Q) :
    ∀ (cs : List (String × Q)) (g : Graph) (vis : Finset String) (w : Weights),
      (Kset g \ vis).card ≤ B →
      (calcChildrenF rec fundName fundValue g cs vis w).isSome := by
  intro cs
  induction cs with
  | nil => intro g vis w _; rw [calcChildrenF]; simp
  | cons p rest ih =>
    obtain ⟨key, value⟩ := p
    intro g vis w hB
    rw [calcChildrenF]
    cases hr : rec g key vis with
    | none =>
      have := hsome g key vis hB
      rw [hr] at this
      simp at this
    | some t =>
      obtain ⟨g₁, vis₁, res₁⟩ := t
      cases res₁ with
      | error e => simp
      | ok p =>
        obtain ⟨sv, subW⟩ := p
        have hv₁ : vis₁ = vis := hvis g key vis g₁ vis₁ (sv, subW) hr
        have hk₁ : Kset g₁ = Kset g := Kset_congr (hfp g key vis _ hr)
        refine ih g₁ vis₁ _ ?_
        rw [hv₁, hk₁]
        exact hB

theorem calcMainF_isSome : ∀ (fuel : Nat) (g : Graph) (n : String)
    (vis : Finset String), (Kset g \ vis).card < fuel →
    (calcMainF fuel g n vis).isSome := by
  intro fuel
  induction fuel with
  | zero => intro g n vis h; simp at h
  | succ fuel ih =>
    intro g n vis hB
    rw [calcMainF]
    by_cases hv : n ∈ vis
    · rw [if_pos hv]; simp
    · rw [if_neg hv]
      simp only [fundOf_ensure]
      by_cases he : (fundOf g n).isEmpty
      · rw [if_pos he]; simp
      · rw [if_neg he]
        have hn : n ∈ Kset g := by
          rw [Kset, Finset.mem_filter]
          exact ⟨fundOf_ne_mem_keys he, he⟩
      
        have hcard : (Kset g \ insert n vis).card < fuel := by
          have hsd : Kset g \ insert n vis = (Kset g \ vis).erase n := by
            ext x
            simp only [Finset.mem_sdiff, Finset.mem_insert, Finset.mem_erase]
            tauto
          have hmem : n ∈ Kset g \ vis := Finset.mem_sdiff.mpr ⟨hn, hv⟩
          have hpos : 1 ≤ (Kset g \ vis).card := Finset.card_pos.mpr ⟨n, hmem⟩
          rw [hsd, Finset.card_erase_of_mem hmem]
          omega
        have hc := calcChildrenF_isSome (Kset g \ insert n vis).card
          (fun g' n' vis' h' => ih g' n' vis' (lt_of_le_of_lt h' ?_))
          (fun a b c d hh => calcMainF_fpres fuel a b c d hh)
          (fun a b c d e f hh => calcMainF_ok_vis fuel a b c d e f hh)
          n (decSum ((fundOf g n).map Prod.snd)) (fundOf g n)
          (ensureD g n []) (insert n vis) [] ?_
        · cases hcc : calcChildrenF (calcMainF fuel) n
              (decSum ((fundOf g n).map Prod.snd)) (ensureD g n [])
              (fundOf g n) (insert n vis) [] with
          | none => rw [hcc] at hc; simp at hc
          | some t =>
            obtain ⟨g₂, vis₂, res⟩ := t
            cases res <;> simp
        · exact hcard
        · rw [Kset_congr (fpres_ensure g n)]

/-! ## Success implies no cycle is reachable from the fund -/

theorem edge_mem_fund {g₀ g : Graph} (hg : FPres g₀ g) {n c : String}
    (h : edgeR g₀ n c) : ∃ val, (c, val) ∈ fundOf g n := by
  unfold edgeR at h
  rw [← hg n] at h
  obtain ⟨⟨pc, pv⟩, hp, hpc⟩ := List.mem_map.mp h
  cases hpc
  exact ⟨pv, hp⟩

theorem mem_fund_edge {g₀ g : Graph} (hg : FPres g₀ g) {n c : String} {val : Q}
    (h : (c, val) ∈ fundOf g n) : edgeR g₀ n c := by
  unfold edgeR
  rw [← hg n]
  exact List.mem_map.mpr ⟨(c, val), h, rfl⟩

theorem no_edge_of_empty {g₀ : Graph} {n c : String}
    (h : (fundOf g₀ n).isEmpty) : ¬ edgeR g₀ n c := by
  intro he
  unfold edgeR at he
  rw [List.isEmpty_iff.mp h] at he
  simp at he

theorem calcChildrenF_ok_acyclic
    {rec : Graph → String → Finset String →
      Option (Graph × Finset String × Res CalcErr (Q × Option Weights))}
    (g₀ : Graph)
    (hrec : ∀ g n vis g' vis' res, FPres g₀ g →
      rec g n vis = some (g', vis', .ok res) →
      ∀ x, Reach g₀ n x → ¬ Relation.TransGen (edgeR g₀) x x)
    (hfp : ∀ g n vis r, rec g n vis = some r → FPres g r.1)
    (fundName : String) (fundValue : Q) :
    ∀ (cs : List (String × Q)) (g : Graph) (vis : Finset String) (w : Weights)
      (g' : Graph) (vis' : Finset String) (w₂ : Weights),
      FPres g₀ g →
      calcChildrenF rec fundName fundValue g cs vis w = some (g', vis', .ok w₂) →
      ∀ c val, (c, val) ∈ cs → ∀ x, Reach g₀ c x →
        ¬ Relation.TransGen (edgeR g₀) x x := by
  intro cs
  induction cs with
  | nil => intro g vis w g' vis' w₂ _ _ c val hmem; simp at hmem
  | cons p rest ih =>
    obtain ⟨key, value⟩ := p
    intro g vis w g' vis' w₂ hg h c val hmem
    obtain ⟨g₁, vis₁, res₁, hr, hcase⟩ := calcChildrenF_cons_cases h
    rcases hcase with ⟨e, hres, hre⟩ | ⟨q, w', hres, hrest⟩
    · simp only [Prod.mk.injEq] at hre
      cases hre.2.2
    · subst hres
      have hg₁ : FPres g₀ g₁ := fpres_trans hg (hfp g key vis _ hr)
      rcases List.mem_cons.mp hmem with hhead | htail
      · injection hhead with hck hvv
        subst hck
        exact hrec g c vis g₁ vis₁ q hg hr
      · exact ih g₁ vis₁ w' g' vis' w₂ hg₁ hrest c val htail

theorem calcMainF_ok_acyclic : ∀ (fuel : Nat) (g₀ g : Graph) (n : String)
    (vis : Finset String) (g' : Graph) (vis' : Finset String)
    (res : Q × Option Weights),
    FPres g₀ g →
    calcMainF fuel g n vis = some (g', vis', .ok res) →
    ∀ x, Reach g₀ n x → ¬ Relation.TransGen (edgeR g₀) x x := by
  intro fuel
  induction fuel with
  | zero => intro g₀ g n vis g' vis' res _ h; rw [calcMainF] at h; simp at h
  | succ fuel ih =>
    intro g₀ g n vis g' vis' res hg h
    rcases calcMainF_succ_cases h with
      ⟨_, hr⟩ | ⟨_, he, hr⟩ | ⟨hv, he, g₂, vis₂, cres, hc, hcase⟩
    · simp only [Prod.mk.injEq] at hr
      cases hr.2.2
    · -- base fund: nothing is reachable but the fund itself, and it has no
      -- outgoing edge, so it lies on no cycle
      have he₀ : (fundOf g₀ n).isEmpty := by rw [← hg n]; exact he
      intro x hx hcyc
      have hxn : x = n := by
        rcases Relation.ReflTransGen.cases_head hx with hxn | ⟨c, hedge, -⟩
        · exact hxn.symm
        · exact absurd hedge (no_edge_of_empty he₀)
      subst hxn
      rcases Relation.TransGen.head'_iff.mp hcyc with ⟨c, hedge, -⟩
      exact absurd hedge (no_edge_of_empty he₀)
    · rcases hcase with ⟨e, hres, hr⟩ | ⟨w, hres, hr⟩
      · simp only [Prod.mk.injEq] at hr
        cases hr.2.2
      · rw [hres] at hc
        have hgE : FPres g₀ (ensureD g n []) := fpres_trans hg (fpres_ensure g n)
        have hP : ∀ c val, (c, val) ∈ fundOf g n → ∀ x, Reach g₀ c x →
            ¬ Relation.TransGen (edgeR g₀) x x :=
          calcChildrenF_ok_acyclic g₀
            (fun a b c' d e' f' hpa hh => ih g₀ a b c' d e' f' hpa hh)
            (fun a b c' d hh => calcMainF_fpres fuel a b c' d hh)
            n (decSum ((fundOf g n).map Prod.snd)) (fundOf g n)
            (ensureD g n []) (insert n vis) [] g₂ vis₂ w hgE hc
        intro x hx hcyc
        rcases Relation.ReflTransGen.cases_head hx with hxn | ⟨c, hedge, hcx⟩
        · subst hxn
          rcases Relation.TransGen.head'_iff.mp hcyc with ⟨c, hedge, hcn⟩
          obtain ⟨val, hmem⟩ := edge_mem_fund hg hedge
          exact hP c val hmem n hcn hcyc
        · obtain ⟨val, hmem⟩ := edge_mem_fund hg hedge
          exact hP c val hmem x hcx hcyc

/-! ## A cycle error names a fund lying on a reachable cycle -/

theorem calcChildrenF_error_cycle
    {rec : Graph → String → Finset String →
      Option (Graph × Finset String × Res CalcErr (Q × Option Weights))}
    (g₀ : Graph) (root : String)
    (hrec : ∀ g n vis g' vis' f, FPres g₀ g →
      (∀ v ∈ vis, Relation.TransGen (edgeR g₀) v n ∧ Reach g₀ root v) →
      Reach g₀ root n →
      rec g n vis = some (g', vis', .error (.looped f)) →
      Relation.TransGen (edgeR g₀) f f ∧ Reach g₀ root f)
    (hvis : ∀ g n vis g' vis' res, rec g n vis = some (g', vis', .ok res) → vis' = vis)
    (hfp : ∀ g n vis r, rec g n vis = some r → FPres g r.1)
    (fundName : String) (fundValue : Q) :
    ∀ (cs : List (String × Q)) (g : Graph) (vis : Finset String) (w : Weights)
      (g' : Graph) (vis' : Finset String) (f : String),
      FPres g₀ g →
      (∀ v ∈ vis, ∀ c val, (c, val) ∈ cs → Relation.TransGen (edgeR g₀) v c) →
      (∀ v ∈ vis, Reach g₀ root v) →
      (∀ c val, (c, val) ∈ cs → Reach g₀ root c) →
      calcChildrenF rec fundName fundValue g cs vis w = some (g', vis', .error (.looped f)) →
      Relation.TransGen (edgeR g₀) f f ∧ Reach g₀ root f := by
  intro cs
  induction cs with
  | nil =>
    intro g vis w g' vis' f _ _ _ _ h
    rw [calcChildrenF] at h
    have h' := Option.some.inj h
    simp only [Prod.mk.injEq] at h'
    cases h'.2.2
  | cons p rest ih =>
    obtain ⟨key, value⟩ := p
    intro g vis w g' vis' f hg hinv hroot hchild h
    obtain ⟨g₁, vis₁, res₁, hr, hcase⟩ := calcChildrenF_cons_cases h
    rcases hcase with ⟨e, hres, hre⟩ | ⟨q, w', hres, hrest⟩
    · simp only [Prod.mk.injEq] at hre
      obtain ⟨-, -, hef⟩ := hre
      injection hef with hef'
      rw [hres, ← hef'] at hr
      exact hrec g key vis g₁ vis₁ f hg
        (fun v hv => ⟨hinv v hv key value (List.mem_cons_self _ _), hroot v hv⟩)
        (hchild key value (List.mem_cons_self _ _)) hr
    · subst hres
      have hv₁ : vis₁ = vis := hvis g key vis g₁ vis₁ q hr
      have hg₁ : FPres g₀ g₁ := fpres_trans hg (hfp g key vis _ hr)
      exact ih g₁ vis₁ w' g' vis' f hg₁
        (fun v hv c val hm => hinv v (hv₁ ▸ hv) c val (List.mem_cons_of_mem _ hm))
        (fun v hv => hroot v (hv₁ ▸ hv))
        (fun c val hm => hchild c val (List.mem_cons_of_mem _ hm)) hrest

theorem calcMainF_error_cycle : ∀ (fuel : Nat) (g₀ : Graph) (root : String)
    (g : Graph) (n : String) (vis : Finset String) (g' : Graph)
    (vis' : Finset String) (f : String),
    FPres g₀ g →
    (∀ v ∈ vis, Relation.TransGen (edgeR g₀) v n ∧ Reach g₀ root v) →
    Reach g₀ root n →
    calcMainF fuel g n vis = some (g', vis', .error (.looped f)) →
    Relation.TransGen (edgeR g₀) f f ∧ Reach g₀ root f := by
  intro fuel
  induction fuel with
  | zero =>
    intro g₀ root g n vis g' vis' f _ _ _ h
    rw [calcMainF] at h; simp at h
  | succ fuel ih =>
    intro g₀ root g n vis g' vis' f hg hinv hroot h
    rcases calcMainF_succ_cases h with
      ⟨hv, hr⟩ | ⟨_, _, hr⟩ | ⟨hv, he, g₂, vis₂, cres, hc, hcase⟩
    · simp only [Prod.mk.injEq, Res.error.injEq, CalcErr.looped.injEq] at hr
      rw [hr.2.2]
      exact ⟨(hinv n hv).1, hroot⟩
    · simp only [Prod.mk.injEq] at hr
      cases hr.2.2
    · rcases hcase with ⟨e, hres, hr⟩ | ⟨w, hres, hr⟩
      · simp only [Prod.mk.injEq, Res.error.injEq] at hr
        rw [hres, ← hr.2.2] at hc
        have hgE : FPres g₀ (ensureD g n []) := fpres_trans hg (fpres_ensure g n)
        refine calcChildrenF_error_cycle g₀ root
          (fun a b c' d e' f' hpa hpb hpc hh => ih g₀ root a b c' d e' f' hpa hpb hpc hh)
          (fun a b c' d e' f' hh => calcMainF_ok_vis fuel a b c' d e' f' hh)
          (fun a b c' d hh => calcMainF_fpres fuel a b c' d hh)
          n (decSum ((fundOf g n).map Prod.snd)) (fundOf g n)
          (ensureD g n []) (insert n vis) [] g₂ vis₂ f hgE ?_ ?_ ?_ hc
        · intro v hvm c val hm
          have hedge : edgeR g₀ n c := mem_fund_edge hg hm
          rcases Finset.mem_insert.mp hvm with hvn | hvv
          · subst hvn
            exact Relation.TransGen.single hedge
          · exact Relation.TransGen.tail (hinv v hvv).1 hedge
        · intro v hvm
          rcases Finset.mem_insert.mp hvm with hvn | hvv
          · subst hvn; exact hroot
          · exact (hinv v hvv).2
        · intro c val hm
          exact Relation.ReflTransGen.tail hroot (mem_fund_edge hg hm)
      · simp only [Prod.mk.injEq] at hr
        cases hr.2.2

/-! ## On a closed graph the calculator never modifies the graph -/

theorem calcChildrenF_closed
    {rec : Graph → String → Finset String →
      Option (Graph × Finset String × Res CalcErr (Q × Option Weights))}
    (hrec : ∀ g n vis r, closedG g → n ∈ keysFinset g → rec g n vis = some r → r.1 = g)
    (fundName : String) (fundValue : Q) :
    ∀ (cs : List (String × Q)) (g : Graph) (vis : Finset String) (w : Weights)
      (r : Graph × Finset String × Res CalcErr Weights),
      closedG g → (∀ c val, (c, val) ∈ cs → c ∈ keysFinset g) →
      calcChildrenF rec fundName fundValue g cs vis w = some r → r.1 = g := by
  intro cs
  induction cs with
  | nil =>
    intro g vis w r _ _ h
    rw [calcChildrenF] at h
    rw [← Option.some.inj h]
  | cons p rest ih =>
    obtain ⟨key, value⟩ := p
    intro g vis w r hcl hmem h
    obtain ⟨g₁, vis₁, res₁, hr, hcase⟩ := calcChildrenF_cons_cases h
    have hg₁ : g₁ = g :=
      hrec g key vis _ hcl (hmem key value (List.mem_cons_self _ _)) hr
    rcases hcase with ⟨e, hres, hre⟩ | ⟨q, w', hres, hrest⟩
    · rw [hre]; exact hg₁
    · rw [hg₁] at hrest
      exact ih g vis₁ w' r hcl
        (fun c val hm => hmem c val (List.mem_cons_of_mem _ hm)) hrest

theorem calcMainF_closed : ∀ (fuel : Nat) (g : Graph) (n : String)
    (vis : Finset String) (r : Graph × Finset String × Res CalcErr (Q × Option Weights)),
    closedG g → n ∈ keysFinset g → calcMainF fuel g n vis = some r → r.1 = g := by
  intro fuel
  induction fuel with
  | zero => intro g n vis r _ _ h; rw [calcMainF] at h; simp at h
  | succ fuel ih =>
    intro g n vis r hcl hn h
    have hens : ensureD g n [] = g :=
      ensureD_eq_of_mem ((mem_keysFinset_iff g n).mp hn)
    rcases calcMainF_succ_cases h with
      ⟨_, hr⟩ | ⟨_, _, hr⟩ | ⟨_, _, g₂, vis₂, cres, hc, hcase⟩
    · rw [hr]
    · rw [hr, hens]
    · rw [hens] at hc
      have hg₂ : g₂ = g :=
        calcChildrenF_closed (fun a b c d hca hcb hh => ih a b c d hca hcb hh)
          n (decSum ((fundOf g n).map Prod.snd)) (fundOf g n) g (insert n vis) []
          (g₂, vis₂, cres) hcl
          (fun c val hm => hcl n hn c (List.mem_map.mpr ⟨(c, val), hm, rfl⟩)) hc
      rcases hcase with ⟨e, _, hr⟩ | ⟨w, _, hr⟩ <;> rw [hr] <;> exact hg₂

/-! ## Rank certificates prove concrete graphs acyclic -/

theorem lookupD_mem {β : Type} : ∀ (l : List (String × β)) (k : String) (v : β),
    lookupD l k = some v → (k, v) ∈ l := by
  intro l
  induction l with
  | nil => intro k v h; simp [lookupD] at h
  | cons p rest ih =>
    obtain ⟨a, b⟩ := p
    intro k v h
    rw [lookupD] at h
    by_cases ha : a = k
    · rw [if_pos ha] at h
      rw [← ha, ← Option.some.inj h]
      exact List.mem_cons_self _ _
    · rw [if_neg ha] at h
      exact List.mem_cons_of_mem _ (ih k v h)

theorem rank_drop_of_checkRank {g : Graph} {rank : String → Nat}
    (h : checkRank g rank = true) {a b : String} (he : edgeR g a b) :
    rank b < rank a := by
  unfold edgeR at he
  cases hl : lookupD g a with
  | none =>
    exfalso
    unfold fundOf at he
    rw [hl] at he
    simp at he
  | some fund =>
    have hmem : (a, fund) ∈ g := lookupD_mem g a fund hl
    unfold checkRank at h
    rw [List.all_eq_true] at h
    have hall := h (a, fund) hmem
    rw [List.all_eq_true] at hall
    exact of_decide_eq_true (hall b he)

theorem acyclic_of_checkRank {g : Graph} {rank : String → Nat}
    (h : checkRank g rank = true) : ∀ x, ¬ Relation.TransGen (edgeR g) x x := by
  have hdrop : ∀ a b, Relation.TransGen (edgeR g) a b → rank b < rank a := by
    intro a b hab
    induction hab with
    | single he => exact rank_drop_of_checkRank h he
    | tail _ he ih => exact lt_trans (rank_drop_of_checkRank h he) ih
  intro x hx
  exact lt_irrefl _ (hdrop x x hx)

/-! ## Builder lemmas: accepted edges persist and accumulate -/

theorem fundOf_setD_self (g : Graph) (k : String) (f : Fund) :
    fundOf (setD g k f) k = f := by
  unfold fundOf
  rw [lookupD_setD_self]
  rfl

theorem fundOf_setD_ne (g : Graph) (k x : String) (f : Fund) (h : k ≠ x) :
    fundOf (setD g k f) x = fundOf g x := by
  unfold fundOf
  rw [lookupD_setD_ne g k x f h]

theorem buildStep_ok_cases {idx : Nat} {st : BuildState} {row : List String}
    {st' : BuildState} (h : buildStep idx st row = .ok st') :
    ∃ parent child vtext qv, row = [parent, child, vtext] ∧
      pyFloat vtext = some qv ∧ ¬parent = "" ∧ ¬child = "" ∧
      lookupD (fundOf (ensureD st.funds parent []) parent) child = none ∧
      st' = ⟨ensureD (setD (ensureD st.funds parent [])
                parent ((fundOf (ensureD st.funds parent []) parent)
                  ++ [(child, floatOfRat qv)])) child [],
             insert child st.hasParent⟩ := by
  cases row with
  | nil => simp only [buildStep] at h; exact Res.noConfusion h
  | cons a t =>
    cases t with
    | nil => simp only [buildStep] at h; exact Res.noConfusion h
    | cons b t₂ =>
      cases t₂ with
      | nil => simp only [buildStep] at h; exact Res.noConfusion h
      | cons c t₃ =>
        cases t₃ with
        | cons d t₄ => simp only [buildStep] at h; exact Res.noConfusion h
        | nil =>
          simp only [buildStep] at h
          cases hp : pyFloat c with
          | none => rw [hp] at h; exact Res.noConfusion h
          | some qv =>
            simp only [hp] at h
            by_cases hnames : a = "" ∨ b = ""
            · rw [if_pos hnames] at h; exact Res.noConfusion h
            · rw [if_neg hnames] at h
              push_neg at hnames
              cases hdup : lookupD (fundOf (ensureD st.funds a []) a) b with
              | some f => simp only [hdup] at h; exact Res.noConfusion h
              | none =>
                simp only [hdup] at h
                exact ⟨a, b, c, qv, rfl, hp, hnames.1, hnames.2, hdup,
                  (Res.ok.inj h).symm⟩

theorem buildStep_edge_mono {idx : Nat} {st st' : BuildState} {row : List String}
    (h : buildStep idx st row = .ok st') (p c : String)
    (he : (lookupD (fundOf st.funds p) c).isSome) :
    (lookupD (fundOf st'.funds p) c).isSome := by
  obtain ⟨parent, child, vtext, qv, -, -, -, -, -, hst⟩ := buildStep_ok_cases h
  rw [hst]
  show (lookupD (fundOf (ensureD (setD (ensureD st.funds parent []) parent _)
    child []) p) c).isSome
  rw [fundOf_ensure]
  by_cases hp : parent = p
  · subst hp
    rw [fundOf_setD_self, lookupD_append, fundOf_ensure]
    cases hl : lookupD (fundOf st.funds parent) c with
    | none => rw [hl] at he; simp at he
    | some v => simp
  · rw [fundOf_setD_ne _ _ _ _ hp, fundOf_ensure]
    exact he

theorem buildStep_edge_add {idx : Nat} {st st' : BuildState}
    {p c vtext : String} (h : buildStep idx st [p, c, vtext] = .ok st') :
    (lookupD (fundOf st'.funds p) c).isSome := by
  obtain ⟨parent, child, vt, qv, hrow, -, -, -, -, hst⟩ := buildStep_ok_cases h
  injection hrow with h₁ hrow
  injection hrow with h₂ hrow
  subst h₁; subst h₂
  rw [hst]
  show (lookupD (fundOf (ensureD (setD (ensureD st.funds p []) p
    ((fundOf (ensureD st.funds p []) p) ++ [(c, floatOfRat qv)])) c []) p) c).isSome
  rw [fundOf_ensure, fundOf_setD_self, lookupD_append]
  cases hl : lookupD (fundOf (ensureD st.funds p []) p) c <;> simp [lookupD]

theorem buildAux_edge_mono : ∀ (rows : List (List String)) (idx : Nat)
    (st st' : BuildState) (p c : String),
    buildAux idx rows st = .ok st' →
    (lookupD (fundOf st.funds p) c).isSome →
    (lookupD (fundOf st'.funds p) c).isSome := by
  intro rows
  induction rows with
  | nil =>
    intro idx st st' p c h he
    rw [buildAux] at h
    rw [← Res.ok.inj h]
    exact he
  | cons row rest ih =>
    intro idx st st' p c h he
    rw [buildAux] at h
    cases hstep : buildStep idx st row with
    | error e => simp only [hstep] at h; exact Res.noConfusion h
    | ok st₁ =>
      simp only [hstep] at h
      exact ih (idx + 1) st₁ st' p c h (buildStep_edge_mono hstep p c he)

theorem buildAux_edge_of_mem : ∀ (rows : List (List String)) (idx : Nat)
    (st st' : BuildState) (p c v : String),
    buildAux idx rows st = .ok st' → [p, c, v] ∈ rows →
    (lookupD (fundOf st'.funds p) c).isSome := by
  intro rows
  induction rows with
  | nil => intro idx st st' p c v _ hm; simp at hm
  | cons row rest ih =>
    intro idx st st' p c v h hm
    rw [buildAux] at h
    cases hstep : buildStep idx st row with
    | error e => simp only [hstep] at h; exact Res.noConfusion h
    | ok st₁ =>
      simp only [hstep] at h
      rcases List.mem_cons.mp hm with hhead | htail
      · subst hhead
        exact buildAux_edge_mono rest (idx + 1) st₁ st' p c h
          (buildStep_edge_add hstep)
      · exact ih (idx + 1) st₁ st' p c v h htail

theorem buildAux_append : ∀ (l₁ l₂ : List (List String)) (idx : Nat) (st : BuildState),
    buildAux idx (l₁ ++ l₂) st =
      match buildAux idx l₁ st with
      | .error e => .error e
      | .ok st' => buildAux (idx + l₁.length) l₂ st' := by
  intro l₁
  induction l₁ with
  | nil => intro l₂ idx st; simp [buildAux]
  | cons row rest ih =>
    intro l₂ idx st
    rw [List.cons_append]
    cases hstep : buildStep idx st row with
    | error e => simp only [buildAux, hstep]
    | ok st₁ =>
      simp only [buildAux, hstep]
      rw [ih l₂ (idx + 1) st₁]
      have hlen : idx + 1 + rest.length = idx + (rest.length + 1) := by omega
      simp only [List.length_cons, hlen]

/-! ## Composing the builder with one more (defective) row -/

theorem read_data_step_error (rows₁ : List (List String)) (row : List String)
    (rows₂ : List (List String)) (st : BuildState) (e : BuildErr)
    (h₁ : buildAux 1 rows₁ ⟨[], ∅⟩ = .ok st)
    (h₂ : buildStep (1 + rows₁.length) st row = .error e) :
    read_data_from_list (rows₁ ++ row :: rows₂) = .error e := by
  unfold read_data_from_list
  rw [buildAux_append, h₁]
  simp only [buildAux, h₂]

/-- A top-level call of `calculate_weights` on a base fund (empty holdings
dict) returns `(Decimal(0), None)` and touches nothing but the possible
defaultdict insertion of the queried name itself. -/
theorem calculate_weights_base (g : Graph) (fundName : String)
    (h : fundOf g fundName = []) :
    calculate_weights g fundName = some (ensureD g fundName [], ∅, .ok (0, none)) := by
  unfold calculate_weights calcFuel
  rw [calcMainF, if_neg (Finset.not_mem_empty fundName)]
  simp only [fundOf_ensure, h, List.isEmpty_nil, if_true]

/-! ## The claims -/

/-- C1: on the scenario-1 graph with root A the calculator does return the
absolute value 3000, but the returned weight mapping is a nested dict whose
keys are the non-base funds A, B, C — not the base funds D…H claimed.  The
claimed base-fund keys and the claimed three-decimal weights 0.167, 0.083,
0.083, 0.333, 0.333 appear only one level down, inside the entry stored
under "A".  (The repository's own test asserts the flat shape, so the code
contradicts its test suite.) -/
theorem C1_assignment_scenario :
    resultValueOf (runScenario scenario1Rows "A") = some 3000 ∧
    outerKeys (runScenario scenario1Rows "A") = ["A", "B", "C"] ∧
    outerKeys (runScenario scenario1Rows "A") ≠ ["D", "E", "F", "G", "H"] ∧
    (rootInner (runScenario scenario1Rows "A") "A").map Prod.fst =
      ["D", "E", "F", "G", "H"] ∧
    (rootInner (runScenario scenario1Rows "A") "A").map (fun kv => roundTo3 kv.2) =
      [normQ 167 1000, normQ 83 1000, normQ 83 1000, normQ 333 1000,
       normQ 333 1000] := by
  decide

/-- C2: on the diamond graph of scenario 2 the calculator returns absolute
value 2600, but the diamond-merge step assigns instead of summing
(`weights[fund_name][k] = …` at lines 104 and 97, plus the wholesale
`weights.update(sub_weights)` at line 108), so the weight computed for D is
0.404 — not the 0.135 stated by the claim and by the repository's own
regression test, and E and F come out as 0.202 instead of 0.096. -/
theorem C2_diamond_overwrite :
    resultValueOf (runScenario scenario2Rows "A") = some 2600 ∧
    (rootInner (runScenario scenario2Rows "A") "A").map Prod.fst =
      ["D", "E", "F", "G", "H"] ∧
    (rootInner (runScenario scenario2Rows "A") "A").map (fun kv => roundTo3 kv.2) =
      [normQ 404 1000, normQ 202 1000, normQ 202 1000, normQ 192 1000,
       normQ 385 1000] ∧
    (rootInner (runScenario scenario2Rows "A") "A").map (fun kv => roundTo3 kv.2) ≠
      [normQ 135 1000, normQ 96 1000, normQ 96 1000, normQ 192 1000,
       normQ 385 1000] := by
  decide

/-- C3 counterexample: scenario 1 builds successfully, its graph is acyclic
(witnessed by a rank function), the root A has holdings, and yet the exact
sum of the weights stored under the root entry is not 1 (it is
1 + 4·10⁻²⁹: every per-level division is rounded to the 28 significant
digits of the default Decimal context, so exactness is lost). -/
theorem C3_counterexample :
    buildOk scenario1Rows = true ∧
    (∀ x, ¬ Relation.TransGen (edgeR (graphOf scenario1Rows)) x x) ∧
    fundOf (graphOf scenario1Rows) "A" ≠ [] ∧
    qsum (rootInner (runScenario scenario1Rows "A") "A") ≠ 1 := by
  refine ⟨by decide, ?_, by decide, by decide⟩
  exact @acyclic_of_checkRank (graphOf scenario1Rows)
    (fun s => if s = "A" then 2 else if s = "B" ∨ s = "C" then 1 else 0)
    (by decide)

/-- C3 (amended): for the scenario-1 tree the root-entry weights sum to 1
only up to Decimal-context rounding (within 10⁻⁹ but not exactly 1), and
for the scenario-2 diamond even that fails: the overwriting merge drives
the sum above 1. -/
theorem C3_sum_tolerance_only :
    qsum (rootInner (runScenario scenario1Rows "A") "A") ≠ 1 ∧
    qLt (qAbs (qSub (qsum (rootInner (runScenario scenario1Rows "A") "A")) 1))
      (normQ 1 1000000000) ∧
    qLt 1 (qsum (rootInner (runScenario scenario2Rows "A") "A")) := by
  decide

/-- C5: the default `visited=set()` is evaluated once and shared between
top-level invocations.  A first call on the looped graph A⇄B raises the
cycle error and leaves {A, B} in the shared set; a subsequent
default-argument call on the *acyclic* one-edge graph A→B then raises a
spurious cycle error, although a fresh call on that graph returns
(1, {A: {B: 1}}).  The spec's requirement that no mutable traversal state
persists between invocations is exactly what the code violates. -/
theorem C5_default_visited_leaks :
    exceptPart (callDefault ∅ gLoop "A") = some (.error (.looped "A")) ∧
    statePart (callDefault ∅ gLoop "A") = {"A", "B"} ∧
    exceptPart (callDefault (statePart (callDefault ∅ gLoop "A")) gLine "A") =
      some (.error (.looped "A")) ∧
    exceptPart (callDefault ∅ gLine "A") =
      some (.ok (1, some [("A", [("B", 1)])])) ∧
    exceptPart (callDefault (statePart (callDefault ∅ gLoop "A")) gLine "A") ≠
      exceptPart (callDefault ∅ gLine "A") := by
  decide

/-- C6 counterexample: called directly on a base fund, the calculator does
not return an empty weight mapping — the weights component is `None`
(`return Decimal(0), None` at line 112), which is a different value from
the empty dict the claim describes. -/
theorem C6_counterexample :
    calculate_weights gBase "X" ≠ some (gBase, ∅, .ok (0, some [])) := by
  decide

/-- C6 (amended): for every graph and every name with an empty holdings
dict, a top-level call returns absolute value 0 together with `None` in
place of a weight mapping (the recursive caller treats the falsy `None`
like an empty dict, but it is not one). -/
theorem C6_base_fund_zero_and_none (g : Graph) (fundName : String)
    (h : fundOf g fundName = []) :
    calculate_weights g fundName =
      some (ensureD g fundName [], ∅, .ok (0, none)) ∧
    (none : Option Weights) ≠ some [] :=
  ⟨calculate_weights_base g fundName h, by simp⟩

/-- C6 witness: the amended statement instantiated at the one-fund graph. -/
theorem C6_witness :
    calculate_weights gBase "X" = some (ensureD gBase "X" [], ∅, .ok (0, none)) ∧
    (none : Option Weights) ≠ some [] :=
  C6_base_fund_zero_and_none gBase "X" (by decide)

/-- C7 counterexample: the builder stores `Decimal(float("0.1"))`, and the
binary64 detour makes the stored value differ from the exact decimal 1/10. -/
theorem C7_counterexample :
    fundOf (graphOf [["A", "B", "0.1"]]) "A" ≠ [("B", normQ 1 10)] := by
  decide

/-- C7 (amended): the value text is parsed to its exact decimal value, but
the stored holding is the nearest IEEE-754 binary64 to it
(`Decimal(float(text))`): "0.1" is stored as
3602879701896397/2⁵⁵ ≠ 1/10, while texts denoting binary64-representable
numbers (integers such as 3 or 1000) are stored exactly.  Subsequent
weight arithmetic is 28-significant-digit Decimal arithmetic, which is
also not exact (1/3 is rounded). -/
theorem C7_float_then_decimal :
    pyFloat "0.1" = some (normQ 1 10) ∧
    fundOf (graphOf [["A", "B", "0.1"]]) "A" =
      [("B", ⟨3602879701896397, 36028797018963968⟩)] ∧
    floatOfRat (normQ 1 10) ≠ normQ 1 10 ∧
    floatOfRat 3 = 3 ∧
    floatOfRat 1000 = 1000 ∧
    decDiv 1 3 ≠ normQ 1 3 := by
  decide

/-- C4 counterexample: the builder has no positivity check at all — a row
whose value parses to 0 is accepted and its edge stored, where the claim
requires a malformed-data error. -/
theorem C4_counterexample :
    read_data_from_list [["A", "B", "0"]] =
      .ok ([("A", [("B", 0)]), ("B", [])], {"A"}) := by
  decide

/-- C4 (amended): if every earlier record is accepted, a record whose value
field does not parse as a float raises `ValueError` at that record's line
and the build aborts with no partial graph; but zero or negative values
are accepted silently (see the counterexample), there is no malformed-data
error for non-positive values. -/
theorem C4_parse_error_no_positivity_check (rows₁ : List (List String))
    (row : List String) (rows₂ : List (List String)) (st : BuildState)
    (h₁ : buildAux 1 rows₁ ⟨[], ∅⟩ = .ok st) (h₂ : row.length = 3)
    (h₃ : pyFloat (row.getD 2 "") = none) :
    read_data_from_list (rows₁ ++ row :: rows₂) =
      .error (.valueError (rows₁.length + 1)) := by
  obtain ⟨a, b, c, hrow⟩ := List.length_eq_three.mp h₂
  subst hrow
  have hc : pyFloat c = none := h₃
  have hstep : buildStep (1 + rows₁.length) st [a, b, c] =
      .error (.valueError (1 + rows₁.length)) := by
    simp only [buildStep, hc]
  have hfin := read_data_step_error rows₁ [a, b, c] rows₂ st _ h₁ hstep
  rwa [Nat.add_comm 1 rows₁.length] at hfin

/-- C4 witness: a single unparsable row raises `ValueError` at line 1. -/
theorem C4_witness :
    read_data_from_list [["A", "B", "x"]] = .error (.valueError 1) := by
  have h := C4_parse_error_no_positivity_check [] ["A", "B", "x"] [] ⟨[], ∅⟩
    rfl rfl (by decide)
  exact h

/-- C8: with the empty initial path of a fresh top-level call, the
calculator raises the cycle error exactly on the graphs with a cycle
reachable from the root — and the raised error names a fund that lies on a
cycle reachable from the root; on a globally acyclic graph the call always
returns normally (and restores the visited set to empty). -/
theorem C8_cycle_detection (g : Graph) (root : String) :
    ((∃ c, Reach g root c ∧ Relation.TransGen (edgeR g) c c) →
      ∃ g' vis' f, calculate_weights g root = some (g', vis', .error (.looped f)) ∧
        Relation.TransGen (edgeR g) f f ∧ Reach g root f) ∧
    ((∀ x, ¬ Relation.TransGen (edgeR g) x x) →
      ∃ g' v w, calculate_weights g root = some (g', ∅, .ok (v, w))) := by
  have hsome : (calcMainF (calcFuel g) g root ∅).isSome := by
    apply calcMainF_isSome
    have h1 : (Kset g \ ∅).card ≤ (keysFinset g).card := by
      rw [Finset.sdiff_empty]
      exact Finset.card_filter_le _ _
    have h2 : (keysFinset g).card ≤ g.length := by
      unfold keysFinset
      calc (g.map Prod.fst).toFinset.card ≤ (g.map Prod.fst).length :=
            List.toFinset_card_le _
        _ = g.length := List.length_map _ _
    unfold calcFuel
    omega
  obtain ⟨r, hr⟩ := Option.isSome_iff_exists.mp hsome
  obtain ⟨g', vis', res⟩ := r
  constructor
  · rintro ⟨c, hreach, hcyc⟩
    cases res with
    | ok p =>
      exact absurd hcyc
        (calcMainF_ok_acyclic (calcFuel g) g g root ∅ g' vis' p (fpres_refl g)
          hr c hreach)
    | error e =>
      cases e with
      | looped f =>
        exact ⟨g', vis', f, hr,
          calcMainF_error_cycle (calcFuel g) g root g root ∅ g' vis' f
            (fpres_refl g) (fun v hv => absurd hv (Finset.not_mem_empty v))
            Relation.ReflTransGen.refl hr⟩
  · intro hacyc
    cases res with
    | error e =>
      cases e with
      | looped f =>
        have hcyc := calcMainF_error_cycle (calcFuel g) g root g root ∅ g' vis' f
          (fpres_refl g) (fun v hv => absurd hv (Finset.not_mem_empty v))
          Relation.ReflTransGen.refl hr
        exact absurd hcyc.1 (hacyc f)
    | ok p =>
      obtain ⟨v, w⟩ := p
      have hv : vis' = ∅ := calcMainF_ok_vis (calcFuel g) g root ∅ g' vis' (v, w) hr
      refine ⟨g', v, w, ?_⟩
      rw [← hv]
      exact hr

/-- C8 witness: on the looped graph A⇄B rooted at A the call raises a cycle
error naming a fund on a reachable cycle, and on the acyclic graph A→B it
returns normally. -/
theorem C8_witness :
    (∃ g' vis' f, calculate_weights gLoop "A" = some (g', vis', .error (.looped f)) ∧
      Relation.TransGen (edgeR gLoop) f f ∧ Reach gLoop "A" f) ∧
    (∃ g' v w, calculate_weights gLine "A" = some (g', ∅, .ok (v, w))) := by
  constructor
  · exact (C8_cycle_detection gLoop "A").1
      ⟨"A", Relation.ReflTransGen.refl,
        Relation.TransGen.head (show edgeR gLoop "A" "B" by decide)
          (Relation.TransGen.single (show edgeR gLoop "B" "A" by decide))⟩
  · exact (C8_cycle_detection gLine "A").2
      (@acyclic_of_checkRank gLine (fun s => if s = "A" then 1 else 0) (by decide))

/-- C9: if every earlier record is accepted, a record repeating the
(parent, child) pair of an earlier record — whatever its value — raises the
"Duplicate fund entry" error at that record's line. -/
theorem C9_duplicate_second_record (rows₁ : List (List String))
    (p c vtext v' : String) (rows₂ : List (List String)) (st : BuildState)
    (qv : Q)
    (h₁ : buildAux 1 rows₁ ⟨[], ∅⟩ = .ok st)
    (h₂ : pyFloat vtext = some qv) (h₃ : p ≠ "") (h₄ : c ≠ "")
    (h₅ : [p, c, v'] ∈ rows₁) :
    read_data_from_list (rows₁ ++ [p, c, vtext] :: rows₂) =
      .error (.duplicate (rows₁.length + 1)) := by
  have hedge := buildAux_edge_of_mem rows₁ 1 ⟨[], ∅⟩ st p c v' h₁ h₅
  obtain ⟨val, hval⟩ := Option.isSome_iff_exists.mp hedge
  have hstep : buildStep (1 + rows₁.length) st [p, c, vtext] =
      .error (.duplicate (1 + rows₁.length)) := by
    simp only [buildStep, h₂, fundOf_ensure, hval, h₃, h₄, or_self, if_false]
  have hfin := read_data_step_error rows₁ [p, c, vtext] rows₂ st _ h₁ hstep
  rwa [Nat.add_comm 1 rows₁.length] at hfin

/-- C9 witness: repeating the pair (A, B) with a different value raises the
duplicate error at line 2. -/
theorem C9_witness :
    read_data_from_list [["A", "B", "1"], ["A", "B", "2"]] =
      .error (.duplicate 2) := by
  have h := C9_duplicate_second_record [["A", "B", "1"]] "A" "B" "2" "1" []
    ⟨[("A", [("B", ⟨1, 1⟩)]), ("B", [])], {"B"}⟩ ⟨2, 1⟩
    (by decide) (by decide) (by decide) (by decide) (by decide)
  exact h

/-- C10: calling the calculator on a name absent from the graph does not
fail: it returns `(0, None)` like a base fund and, as a side effect of the
defaultdict lookup, appends that name with empty holdings to the graph;
on a closed graph (such as every graph the builder produces, where each
child is a key) a call on a present name leaves the graph unchanged. -/
theorem C10_defaultdict_frame :
    (∀ (g : Graph) (fundName : String), fundName ∉ keysFinset g →
      calculate_weights g fundName =
        some (g ++ [(fundName, [])], ∅, .ok (0, none))) ∧
    (∀ (g : Graph) (fundName : String) (g' : Graph) (vis' : Finset String)
        (res : Res CalcErr (Q × Option Weights)),
      closedG g → fundName ∈ keysFinset g →
      calculate_weights g fundName = some (g', vis', res) → g' = g) := by
  constructor
  · intro g fundName h
    have hnone : lookupD g fundName = none := by
      cases hl : lookupD g fundName with
      | none => rfl
      | some f =>
        exact absurd ((mem_keysFinset_iff g fundName).mpr (by rw [hl]; rfl)) h
    have hfund : fundOf g fundName = [] := by
      unfold fundOf
      rw [hnone]
      rfl
    rw [calculate_weights_base g fundName hfund, ensureD_eq_append hnone]
  · intro g fundName g' vis' res hcl hmem h
    exact calcMainF_closed (calcFuel g) g fundName ∅ (g', vis', res) hcl hmem h

/-- C10 witness: a call on the absent name Z extends the builder-produced
graph A→B with an empty fund Z and returns `(0, None)`; a call on the
present root A leaves that closed graph unchanged. -/
theorem C10_witness :
    calculate_weights gLine "Z" = some (gLine ++ [("Z", [])], ∅, .ok (0, none)) ∧
    gLine = gLine := by
  constructor
  · exact C10_defaultdict_frame.1 gLine "Z" (by decide)
  · exact C10_defaultdict_frame.2 gLine "A" gLine ∅
      (.ok (1, some [("A", [("B", 1)])])) (by decide) (by decide) (by decide)
